import Mathlib

/-
Verification of the glyph-atlas / incremental text-render engine of
`src/gpu/fast_text.rs` (struct `FastTextRenderer`).

The Rust code is shallowly embedded:
* machine integers (`usize`, `u32`) become `Nat` (the quantities involved —
  character indices, atlas coordinates — stay far below any wrap boundary);
* `f32`/`f64` arithmetic is modelled over `ℚ` (the claims under study are
  about the exact shape of the computed expressions, not rounding);
* the external `fontdue` rasterizer and the `sdf_glyph_renderer` crate are
  opaque collaborators of the repository; they are modelled as an explicit
  `FontOracle` parameter, so every theorem is quantified over their
  behaviour, and concrete oracles instantiate them in witnesses;
* `HashMap<char, GlyphInfo>` becomes an association list consulted with
  `List.lookup` (keys inserted by the code are pairwise distinct);
* `Result<T, JsValue>` becomes `Except String T` (the embedded operations
  only ever take the `Ok` path, exactly as in the source).
-/

namespace FastText

/-! ### Text / cursor state (`text_buffer`, `cursor_position`, `last_text`)

Mirrors the fields of `FastTextRenderer` touched by the character-based
text operations (`fast_text.rs` lines 70-74 and 796-843). -/

structure TState where
  text_buffer : List Char
  cursor_position : Nat
  last_text : List Char
deriving DecidableEq, Repr

/-- Initial values from `FastTextRenderer::new` (`fast_text.rs` 109-111). -/
def initialTState : TState :=
  { text_buffer := [], cursor_position := 0, last_text := [] }

/-- Embeds `update_last_text` (`fast_text.rs` 841-843):
`self.last_text = self.text_buffer.iter().collect()`. -/
def update_last_text (st : TState) : TState :=
  { st with last_text := st.text_buffer }

/-- Embeds `insert_char` (`fast_text.rs` 797-804).  The source always
returns `Ok(())`; the guard `cursor_position <= text_buffer.len()` protects
the `Vec::insert`. -/
def insert_char (st : TState) (ch : Char) : Except String TState :=
  Except.ok <|
    if st.cursor_position ≤ st.text_buffer.length then
      update_last_text
        { st with
          text_buffer := st.text_buffer.insertIdx st.cursor_position ch,
          cursor_position := st.cursor_position + 1 }
    else st

/-- Embeds `delete_char_before_cursor` (`fast_text.rs` 806-813).  The
source always returns `Ok(())`; when `cursor_position == 0` nothing
happens. -/
def delete_char_before_cursor (st : TState) : Except String TState :=
  Except.ok <|
    if st.cursor_position > 0 then
      update_last_text
        { st with
          text_buffer := st.text_buffer.eraseIdx (st.cursor_position - 1),
          cursor_position := st.cursor_position - 1 }
    else st

/-- Embeds `move_cursor_left` (`fast_text.rs` 815-819). -/
def move_cursor_left (st : TState) : TState :=
  if st.cursor_position > 0 then
    { st with cursor_position := st.cursor_position - 1 }
  else st

/-- Embeds `move_cursor_right` (`fast_text.rs` 821-825). -/
def move_cursor_right (st : TState) : TState :=
  if st.cursor_position < st.text_buffer.length then
    { st with cursor_position := st.cursor_position + 1 }
  else st

/-- Embeds `set_text` (`fast_text.rs` 835-839): the argument string is
taken as its list of characters (`text.chars().collect()`). -/
def set_text (st : TState) (text : List Char) : TState :=
  update_last_text
    { st with text_buffer := text, cursor_position := text.length }

/-- The cursor-bounds invariant of the spec data model:
`0 ≤ cursor_position ≤ text_buffer.len()` (the lower bound is implicit in
`Nat`). -/
def CursorInv (st : TState) : Prop :=
  st.cursor_position ≤ st.text_buffer.length

instance (st : TState) : Decidable (CursorInv st) := by
  unfold CursorInv; infer_instance

/-! ### Dirty-region differ (`calculate_dirty_regions`, `fast_text.rs` 397-438) -/

/-- Embeds the struct `DirtyRegion` (`fast_text.rs` 42-47). -/
structure DirtyRegion where
  start_char : Nat
  end_char : Nat
  needs_update : Bool
deriving DecidableEq, Repr

/-- Loop state of `calculate_dirty_regions`: the local mutables
`start`, `end`, `in_dirty_region` and the accumulated `dirty_regions`
vector.  (`end` is a Lean keyword, hence `ending`.) -/
structure DiffSt where
  start : Nat
  ending : Nat
  in_dirty_region : Bool
  regions : List DirtyRegion
deriving DecidableEq, Repr

/-- One iteration of the `for i in 0..max_len` loop of
`calculate_dirty_regions` (`fast_text.rs` 409-427). -/
def diff_step (old_chars new_chars : List Char) (st : DiffSt) (i : Nat) : DiffSt :=
  if old_chars.get? i ≠ new_chars.get? i then
    if st.in_dirty_region then { st with ending := i }
    else { st with start := i, ending := i, in_dirty_region := true }
  else
    if st.in_dirty_region then
      { st with
        regions := st.regions ++ [⟨st.start, st.ending + 1, true⟩],
        in_dirty_region := false }
    else st

/-- The trailing `if in_dirty_region` block of `calculate_dirty_regions`
(`fast_text.rs` 429-435), closing a run still open at `max_len`. -/
def diff_close (st : DiffSt) : List DirtyRegion :=
  if st.in_dirty_region then st.regions ++ [⟨st.start, st.ending + 1, true⟩]
  else st.regions

/-- Embeds `calculate_dirty_regions` (`fast_text.rs` 397-438) as a function
of the two character sequences (`self.last_text` and `new_text`), returning
the `dirty_regions` vector. -/
def calculate_dirty_regions (old_chars new_chars : List Char) : List DirtyRegion :=
  diff_close
    ((List.range (max old_chars.length new_chars.length)).foldl
      (diff_step old_chars new_chars) ⟨0, 0, false, []⟩)

/-- A position is covered by the region list when it falls in some
half-open range `[start_char, end_char)`. -/
def coveredBy (rs : List DirtyRegion) (i : Nat) : Bool :=
  rs.any fun r => decide (r.start_char ≤ i) && decide (i < r.end_char)

/-- Modelled from the spec: applying the dirty regions of `diff(a,b)` to
`a` as positional replacements — at covered positions take `b`'s
character, elsewhere keep `a`'s, truncating or extending as needed. -/
def apply_dirty_regions (a b : List Char) (rs : List DirtyRegion) : List Char :=
  (List.range (max a.length b.length)).filterMap
    fun i => if coveredBy rs i then b.get? i else a.get? i

/-! ### SDF atlas generation (`generate_sdf_atlas`, `fast_text.rs` 447-522)

The external collaborators are abstracted into a `FontOracle`:
`rasterize` stands for `fontdue::Font::rasterize(ch, 12.0)`, and
`render_sdf` stands for the composition
`BitmapGlyph::from_unbuffered(..).map(|g| g.render_sdf(4))` — `none`
models a `from_unbuffered` error, which the source answers with
`continue` (the character is skipped). -/

/-- Configuration fixed by the source: `atlas_size = 1024`
(`fast_text.rs` 113). -/
def atlas_size : Nat := 1024

/-- Fixed cell size: `let char_size = 64` (`fast_text.rs` 459). -/
def char_size : Nat := 64

/-- Cells per atlas row: `atlas_size / char_size` (`fast_text.rs` 460). -/
def chars_per_row : Nat := atlas_size / char_size

/-- SDF padding: `buffer_size = 4` (`fast_text.rs` 114). -/
def buffer_size : Nat := 4

/-- SDF radius: `let sdf_radius = 4.0` (`fast_text.rs` 480). -/
def sdf_radius : ℚ := 4

/-- Embeds the struct `GlyphInfo` (`fast_text.rs` 32-39).  The source
stores `f32`, but every stored value is a small natural number cast from
integer pixel data, hence `Nat` fields. -/
structure GlyphInfo where
  atlas_x : Nat
  atlas_y : Nat
  width : Nat
  height : Nat
  sdf_width : Nat
  sdf_height : Nat
deriving DecidableEq, Repr

/-- Rasterizer metrics (width and height are all the source reads). -/
structure Metrics where
  width : Nat
  height : Nat
deriving DecidableEq, Repr

/-- Result of `font.rasterize(ch, 12.0)`: metrics plus coverage bitmap. -/
structure RasterOut where
  metrics : Metrics
  bitmap : List Nat
deriving DecidableEq, Repr

/-- Opaque model of the external font / SDF libraries (see section
comment). -/
structure FontOracle where
  rasterize : Char → RasterOut
  render_sdf : Char → Option (List ℚ)

/-- The guard of `fast_text.rs` 470:
`!bitmap.is_empty() && metrics.width > 0 && metrics.height > 0`. -/
def rasterOk (o : FontOracle) (ch : Char) : Bool :=
  let r := o.rasterize ch
  !r.bitmap.isEmpty && decide (0 < r.metrics.width) && decide (0 < r.metrics.height)

/-- Rust `char::is_whitespace` (the Unicode `White_Space` property),
used through `text.chars().filter(|c| !c.is_whitespace())`. -/
def is_whitespace (c : Char) : Bool :=
  let n := c.toNat
  (decide (0x9 ≤ n) && decide (n ≤ 0xD)) || n == 0x20 || n == 0x85 ||
  n == 0xA0 || n == 0x1680 ||
  (decide (0x2000 ≤ n) && decide (n ≤ 0x200A)) ||
  n == 0x2028 || n == 0x2029 || n == 0x202F || n == 0x205F || n == 0x3000

/-- Insertion into a code-point-sorted list, for `unique_chars.sort()`. -/
def insertSorted (c : Char) : List Char → List Char
  | [] => [c]
  | d :: ds => if c.val ≤ d.val then c :: d :: ds else d :: insertSorted c ds

/-- Insertion sort by code point, modelling `Vec::sort` on `Vec<char>`
(`fast_text.rs` 454; stability is irrelevant on deduplicated keys). -/
def sortChars : List Char → List Char
  | [] => []
  | c :: cs => insertSorted c (sortChars cs)

/-- Removal of consecutive duplicates, modelling `Vec::dedup`
(`fast_text.rs` 455). -/
def dedupAdj : List Char → List Char
  | [] => []
  | [c] => [c]
  | c :: d :: rest =>
    if c = d then dedupAdj (d :: rest) else c :: dedupAdj (d :: rest)

/-- The `unique_chars` computation of `fast_text.rs` 453-455: filter out
whitespace, sort, dedup. -/
def unique_chars (text : List Char) : List Char :=
  dedupAdj (sortChars (text.filter fun c => !is_whitespace c))

/-- The SDF quantization of `fast_text.rs` 509-510:
`((sdf_data[i] / sdf_radius + 1.0) * 127.5).clamp(0.0, 255.0) as u8`
(the final `as u8` truncates a value already clamped into `[0, 255]`,
i.e. takes the floor). -/
def quantize (d : ℚ) : Nat :=
  (⌊min (max ((d / sdf_radius + 1) * (255 / 2)) 0) 255⌋).toNat

/-- Pointwise update of the atlas byte buffer (modelled as a function on
indices; the buffer has `atlas_size * atlas_size` cells). -/
def atlasWrite (a : Nat → Nat) (i v : Nat) : Nat → Nat :=
  fun j => if j = i then v else a j

/-- The nested copy loops of `fast_text.rs` 496-515: write the quantized
SDF bytes of one glyph into its cell at `(char_x, char_y)`, clipped to
`min(sdf_dim, char_size)`, guarded by `atlas_idx < atlas_data.len()` and
`sdf_idx < sdf_data.len()`. -/
def write_sdf_cell (sdf_width sdf_height : Nat) (sdf_data : List ℚ)
    (char_x char_y : Nat) (atlas : Nat → Nat) : Nat → Nat :=
  let copy_width := min sdf_width char_size
  let copy_height := min sdf_height char_size
  (List.range copy_height).foldl
    (fun a y =>
      (List.range copy_width).foldl
        (fun a2 x =>
          let atlas_idx := (char_y + y) * atlas_size + (char_x + x)
          if atlas_idx < atlas_size * atlas_size then
            match sdf_data.get? (y * sdf_width + x) with
            | some d => atlasWrite a2 atlas_idx (quantize d)
            | none => a2
          else a2)
        a)
    atlas

/-- The `GlyphInfo` record built at `fast_text.rs` 487-494 for the `i`-th
unique character, with the cell origin of `fast_text.rs` 465-466. -/
def glyph_info_of (o : FontOracle) (i : Nat) (ch : Char) : GlyphInfo :=
  let m := (o.rasterize ch).metrics
  { atlas_x := (i % chars_per_row) * char_size
    atlas_y := (i / chars_per_row) * char_size
    width := m.width
    height := m.height
    sdf_width := m.width + 2 * buffer_size
    sdf_height := m.height + 2 * buffer_size }

/-- State built by `generate_sdf_atlas`: the glyph map (association list
with most recent insertion first, matching `HashMap::insert` overwrite
semantics under `List.lookup`) and the atlas byte buffer. -/
structure AtlasState where
  glyph_map : List (Char × GlyphInfo)
  atlas_data : Nat → Nat

/-- Loop body of `fast_text.rs` 464-517 for one `(i, ch)` pair of
`unique_chars.iter().enumerate()`: skip the character when its bitmap is
degenerate or SDF creation fails, otherwise insert its `GlyphInfo` and
copy its quantized SDF bytes into the atlas. -/
def process_char (o : FontOracle) (st : AtlasState) (p : Nat × Char) : AtlasState :=
  let i := p.1
  let ch := p.2
  let char_x := (i % chars_per_row) * char_size
  let char_y := (i / chars_per_row) * char_size
  let r := o.rasterize ch
  if rasterOk o ch then
    match o.render_sdf ch with
    | none => st
    | some sdf_data =>
      let sdf_width := r.metrics.width + 2 * buffer_size
      let sdf_height := r.metrics.height + 2 * buffer_size
      { glyph_map := (ch, glyph_info_of o i ch) :: st.glyph_map
        atlas_data := write_sdf_cell sdf_width sdf_height sdf_data char_x char_y st.atlas_data }
  else st

/-- Atlas buffer initialization: `vec![128u8; atlas_size]`
(`fast_text.rs` 451, middle gray). -/
def initialAtlas : Nat → Nat := fun _ => 128

/-- Embeds `generate_sdf_atlas` (`fast_text.rs` 447-522).  The source
starts from a fresh `atlas_data`, clears `self.glyph_map` (line 462) and
finally stores `self.sdf_atlas = Some(atlas_data)`; the result therefore
depends only on the oracle and the text, never on the previous renderer
state, which is why this embedding takes no state argument.  The source
returns `Ok(())` unconditionally. -/
def generate_sdf_atlas (o : FontOracle) (text : List Char) : AtlasState :=
  (unique_chars text).enum.foldl (process_char o)
    { glyph_map := [], atlas_data := initialAtlas }

/-! ### The regeneration guard of `render_text` (`fast_text.rs` 549-554) -/

/-- Renderer state visible to the coverage guard. -/
structure RenderState where
  glyph_map : List (Char × GlyphInfo)
  sdf_atlas : Option (Nat → Nat)

/-- The condition of `fast_text.rs` 549:
`self.sdf_atlas.is_none() || !text.chars().all(|c| c.is_whitespace() || self.glyph_map.contains_key(&c))`. -/
def needs_regen (s : RenderState) (text : List Char) : Bool :=
  s.sdf_atlas.isNone ||
    !(text.all fun c => is_whitespace c || (s.glyph_map.lookup c).isSome)

/-- The coverage-ensuring path of `render_text` (`fast_text.rs` 548-554):
when the guard fires, `generate_sdf_atlas` replaces the glyph map and the
atlas; otherwise nothing happens.  The boolean records whether
regeneration (rasterization and atlas writes) took place. -/
def ensure_coverage (o : FontOracle) (s : RenderState) (text : List Char) :
    RenderState × Bool :=
  if needs_regen s text then
    let a := generate_sdf_atlas o text
    ({ glyph_map := a.glyph_map, sdf_atlas := some a.atlas_data }, true)
  else (s, false)

/-! ### Vertex generation (`generate_text_vertices`, `fast_text.rs` 706-761) -/

/-- One glyph produced by the external `fontdue` layout: the source reads
`glyph.parent` (the character) and `glyph.x`, `glyph.y` (screen
position).  The layout list is an opaque parameter of the embedding. -/
structure LaidGlyph where
  parent : Char
  x : ℚ
  y : ℚ
deriving DecidableEq, Repr

/-- The body of the `for glyph in layout.glyphs()` loop of
`generate_text_vertices` (`fast_text.rs` 718-756): for a glyph found in
the map, six vertices of four floats are appended exactly as in lines
722-755; otherwise the vertex list is unchanged. -/
def glyph_quad_step (glyph_map : List (Char × GlyphInfo))
    (screen_width screen_height : ℚ) (vertices : List ℚ)
    (glyph : LaidGlyph) : List ℚ :=
  match glyph_map.lookup glyph.parent with
  | none => vertices
  | some glyph_info =>
    let buffer_offset : ℚ := (buffer_size : ℚ)
    let screen_left := glyph.x - buffer_offset
    let screen_top := glyph.y - buffer_offset
    let screen_right := screen_left + (glyph_info.sdf_width : ℚ)
    let screen_bottom := screen_top + (glyph_info.sdf_height : ℚ)
    let left := screen_left / screen_width * 2 - 1
    let right := screen_right / screen_width * 2 - 1
    let top := 1 - screen_top / screen_height * 2
    let bottom := 1 - screen_bottom / screen_height * 2
    let u_left := (glyph_info.atlas_x : ℚ) / (atlas_size : ℚ)
    let u_right := ((glyph_info.atlas_x : ℚ) + (glyph_info.sdf_width : ℚ)) / (atlas_size : ℚ)
    let v_top := (glyph_info.atlas_y : ℚ) / (atlas_size : ℚ)
    let v_bottom := ((glyph_info.atlas_y : ℚ) + (glyph_info.sdf_height : ℚ)) / (atlas_size : ℚ)
    vertices ++
      [left, bottom, u_left, v_bottom,
       right, bottom, u_right, v_bottom,
       left, top, u_left, v_top,
       right, bottom, u_right, v_bottom,
       right, top, u_right, v_top,
       left, top, u_left, v_top]

/-- Embeds `generate_text_vertices` (`fast_text.rs` 706-761) as a
function of the glyph map, the laid-out glyphs, and the viewport size. -/
def generate_text_vertices (glyph_map : List (Char × GlyphInfo))
    (layout : List LaidGlyph) (screen_width screen_height : ℚ) : List ℚ :=
  layout.foldl (glyph_quad_step glyph_map screen_width screen_height) []

/-- Modelled from the spec (§4.5 step 3): conversion of a screen abscissa
to normalized device coordinates. -/
def ndc_x (viewport_w screen_x : ℚ) : ℚ :=
  screen_x / viewport_w * 2 - 1

/-- Modelled from the spec (§4.5 step 3): conversion of a screen ordinate
to normalized device coordinates, Y flipped. -/
def ndc_y (viewport_h screen_y : ℚ) : ℚ :=
  1 - screen_y / viewport_h * 2

/-- Modelled from the spec (§4.5 steps 2-5): the six `(ndc_x, ndc_y, u, v)`
vertices of one glyph quad, in the fixed order bottom-left, bottom-right,
top-left / bottom-right, top-right, top-left. -/
def spec_glyph_quad (gi : GlyphInfo) (g : LaidGlyph) (sw sh : ℚ) : List ℚ :=
  let screen_left := g.x - (buffer_size : ℚ)
  let screen_top := g.y - (buffer_size : ℚ)
  let screen_right := screen_left + (gi.sdf_width : ℚ)
  let screen_bottom := screen_top + (gi.sdf_height : ℚ)
  let u_left := (gi.atlas_x : ℚ) / (atlas_size : ℚ)
  let u_right := ((gi.atlas_x : ℚ) + (gi.sdf_width : ℚ)) / (atlas_size : ℚ)
  let v_top := (gi.atlas_y : ℚ) / (atlas_size : ℚ)
  let v_bottom := ((gi.atlas_y : ℚ) + (gi.sdf_height : ℚ)) / (atlas_size : ℚ)
  [ndc_x sw screen_left, ndc_y sh screen_bottom, u_left, v_bottom,
   ndc_x sw screen_right, ndc_y sh screen_bottom, u_right, v_bottom,
   ndc_x sw screen_left, ndc_y sh screen_top, u_left, v_top,
   ndc_x sw screen_right, ndc_y sh screen_bottom, u_right, v_bottom,
   ndc_x sw screen_right, ndc_y sh screen_top, u_right, v_top,
   ndc_x sw screen_left, ndc_y sh screen_top, u_left, v_top]

/-! ### Concrete oracles used in witnesses and counterexamples -/

/-- An oracle on which every character rasterizes to a non-degenerate
1 × 1 bitmap and SDF creation succeeds. -/
def testOracle : FontOracle where
  rasterize := fun _ => { metrics := { width := 1, height := 1 }, bitmap := [255] }
  render_sdf := fun _ => some []

/-- An oracle on which every character rasterizes to an empty bitmap
(the degenerate case of `fast_text.rs` 470). -/
def emptyOracle : FontOracle where
  rasterize := fun _ => { metrics := { width := 0, height := 0 }, bitmap := [] }
  render_sdf := fun _ => some []

/-- A text with 257 distinct non-whitespace characters (the Cyrillic
block `U+0400 .. U+0500`), one more than the atlas capacity
`chars_per_row² = 256`. -/
def bigText : List Char := (List.range 257).map fun k => Char.ofNat (0x400 + k)

/-- Renderer state after `FastTextRenderer::new`: empty glyph map, no
atlas (`fast_text.rs` 105-106). -/
def initialRenderState : RenderState :=
  { glyph_map := [], sdf_atlas := none }

/-! ### Generic helper lemmas -/

theorem foldl_preserve {α β : Type} {P : α → Prop} (f : α → β → α)
    (hf : ∀ a x, P a → P (f a x)) :
    ∀ (l : List β) (a : α), P a → P (l.foldl f a) := by
  intro l
  induction l with
  | nil => intro a ha; exact ha
  | cons x t ih => intro a ha; exact ih (f a x) (hf a x ha)

theorem foldl_fixed {α β : Type} (f : α → β → α) (l : List β) (a : α)
    (hf : ∀ x, f a x = a) : l.foldl f a = a := by
  induction l with
  | nil => rfl
  | cons x t ih => rw [List.foldl_cons, hf x]; exact ih

theorem lookup_isSome_of_mem {β : Type} :
    ∀ (l : List (Char × β)) (c : Char) (v : β),
      (c, v) ∈ l → (l.lookup c).isSome = true := by
  intro l
  induction l with
  | nil => intro c v h; cases h
  | cons p t ih =>
    intro c v h
    by_cases hc : (c == p.1) = true
    · simp [List.lookup, hc]
    · rcases List.mem_cons.mp h with h1 | h1
      · exact absurd (beq_iff_eq.mpr (congrArg Prod.fst h1.symm ▸ rfl)) hc
      · simpa [List.lookup, hc] using ih c v h1

/-! ### C8 / C9 / C10 : text-buffer operations -/

/-- C8: the cursor-bounds invariant `0 ≤ cursor_position ≤ text_buffer.len()`
holds in the initial renderer state and is preserved by `insert_char`,
`delete_char_before_cursor`, `move_cursor_left`, `move_cursor_right` and
`set_text`, for every starting state satisfying it and every argument. -/
theorem cursor_bounds_invariant :
    CursorInv initialTState ∧
    (∀ st ch st2, CursorInv st → insert_char st ch = Except.ok st2 → CursorInv st2) ∧
    (∀ st st2, CursorInv st → delete_char_before_cursor st = Except.ok st2 → CursorInv st2) ∧
    (∀ st, CursorInv st → CursorInv (move_cursor_left st)) ∧
    (∀ st, CursorInv st → CursorInv (move_cursor_right st)) ∧
    (∀ st text, CursorInv (set_text st text)) := by
  refine ⟨?_, ?_, ?_, ?_, ?_, ?_⟩
  · simp [CursorInv, initialTState]
  · intro st ch st2 hinv heq
    have hle : st.cursor_position ≤ st.text_buffer.length := hinv
    rw [insert_char, if_pos hle] at heq
    simp only [Except.ok.injEq] at heq
    subst heq
    show st.cursor_position + 1 ≤ (st.text_buffer.insertIdx st.cursor_position ch).length
    rw [List.length_insertIdx _ _ hle]
    omega
  · intro st st2 hinv heq
    have hle : st.cursor_position ≤ st.text_buffer.length := hinv
    rw [delete_char_before_cursor] at heq
    by_cases hpos : st.cursor_position > 0
    · rw [if_pos hpos] at heq
      simp only [Except.ok.injEq] at heq
      subst heq
      show st.cursor_position - 1 ≤ (st.text_buffer.eraseIdx (st.cursor_position - 1)).length
      rw [List.length_eraseIdx]
      have hlt : st.cursor_position - 1 < st.text_buffer.length := by omega
      rw [if_pos hlt]
      omega
    · rw [if_neg hpos] at heq
      simp only [Except.ok.injEq] at heq
      subst heq
      exact hinv
  · intro st hinv
    unfold move_cursor_left
    split_ifs with h
    · show st.cursor_position - 1 ≤ st.text_buffer.length
      exact le_trans (Nat.sub_le _ _) hinv
    · exact hinv
  · intro st hinv
    unfold move_cursor_right
    split_ifs with h
    · show st.cursor_position + 1 ≤ st.text_buffer.length
      omega
    · exact hinv
  · intro st text
    show text.length ≤ text.length
    exact le_refl _

/-- Witness for C8: the invariant theorem applied at concrete states, with
its hypotheses discharged concretely. -/
theorem cursor_bounds_invariant_witness :
    CursorInv (update_last_text
      { text_buffer := List.insertIdx 1 'b' ['a'],
        cursor_position := 1 + 1, last_text := ['a'] }) ∧
    CursorInv (update_last_text
      { text_buffer := List.eraseIdx ['a', 'b'] (2 - 1),
        cursor_position := 2 - 1, last_text := ['a', 'b'] }) ∧
    CursorInv (move_cursor_left { text_buffer := ['a'], cursor_position := 1, last_text := ['a'] }) :=
  ⟨cursor_bounds_invariant.2.1 ⟨['a'], 1, ['a']⟩ 'b' _ (by decide) rfl,
   cursor_bounds_invariant.2.2.1 ⟨['a', 'b'], 2, ['a', 'b']⟩ _ (by decide) rfl,
   cursor_bounds_invariant.2.2.2.1 ⟨['a'], 1, ['a']⟩ (by decide)⟩

/-- C9: `set_text(s)` replaces `text_buffer` with the character sequence
of `s`, puts the cursor at its end, and makes `last_text` equal to the
new `text_buffer`. -/
theorem set_text_spec (st : TState) (text : List Char) :
    (set_text st text).text_buffer = text ∧
    (set_text st text).cursor_position = text.length ∧
    (set_text st text).last_text = (set_text st text).text_buffer :=
  ⟨rfl, rfl, rfl⟩

/-- C10: with the cursor at position 0, `delete_char_before_cursor`
returns `Ok` and leaves the whole state (text buffer, cursor and
`last_text`) unchanged. -/
theorem delete_at_start_noop (st : TState) (h : st.cursor_position = 0) :
    delete_char_before_cursor st = Except.ok st := by
  rw [delete_char_before_cursor, if_neg]
  omega

/-- Witness for C10 at a concrete two-character state. -/
theorem delete_at_start_noop_witness :
    delete_char_before_cursor { text_buffer := ['a', 'b'], cursor_position := 0, last_text := ['a', 'b'] } =
      Except.ok { text_buffer := ['a', 'b'], cursor_position := 0, last_text := ['a', 'b'] } :=
  delete_at_start_noop _ rfl

/-! ### Glyph-map structure lemmas -/

/-- A character is inserted into the glyph map exactly when its bitmap is
non-degenerate and SDF creation succeeds (`fast_text.rs` 470-478). -/
def good_glyph (o : FontOracle) (ch : Char) : Bool :=
  rasterOk o ch && (o.render_sdf ch).isSome

theorem mem_insertSorted (c d : Char) :
    ∀ l : List Char, c ∈ insertSorted d l ↔ c = d ∨ c ∈ l := by
  intro l
  induction l with
  | nil => simp [insertSorted]
  | cons e t ih =>
    simp only [insertSorted]
    split_ifs with h
    · simp [List.mem_cons]
    · simp only [List.mem_cons, ih]
      tauto

theorem mem_sortChars (c : Char) : ∀ l : List Char, c ∈ sortChars l ↔ c ∈ l := by
  intro l
  induction l with
  | nil => simp [sortChars]
  | cons d t ih =>
    simp only [sortChars, mem_insertSorted, ih, List.mem_cons]

theorem mem_dedupAdj : ∀ (l : List Char) (c : Char), c ∈ dedupAdj l ↔ c ∈ l
  | [], c => by simp [dedupAdj]
  | [d], c => by simp [dedupAdj]
  | d :: e :: rest, c => by
    simp only [dedupAdj]
    split_ifs with h
    · rw [mem_dedupAdj (e :: rest) c]
      subst h
      simp [List.mem_cons]
    · simp only [List.mem_cons, mem_dedupAdj (e :: rest) c]

theorem mem_unique_chars (c : Char) (text : List Char) :
    c ∈ unique_chars text ↔ c ∈ text ∧ is_whitespace c = false := by
  rw [unique_chars, mem_dedupAdj, mem_sortChars, List.mem_filter,
    Bool.not_eq_true']

theorem mem_enumFrom_of_mem :
    ∀ (l : List Char) (n : Nat) (c : Char), c ∈ l → ∃ i, (i, c) ∈ l.enumFrom n := by
  intro l
  induction l with
  | nil => intro n c h; cases h
  | cons d t ih =>
    intro n c h
    rcases List.mem_cons.mp h with h1 | h1
    · exact ⟨n, by simp [List.enumFrom, h1]⟩
    · rcases ih (n + 1) c h1 with ⟨i, hi⟩
      exact ⟨i, by simp [List.enumFrom, Or.inr hi]⟩

theorem glyph_map_foldl (o : FontOracle) :
    ∀ (l : List (Nat × Char)) (st : AtlasState),
      (l.foldl (process_char o) st).glyph_map =
        ((l.filter fun p => good_glyph o p.2).map
          fun p => (p.2, glyph_info_of o p.1 p.2)).reverse ++ st.glyph_map := by
  intro l
  induction l with
  | nil => intro st; simp
  | cons p t ih =>
    intro st
    rw [List.foldl_cons, ih]
    by_cases hr : rasterOk o p.2 = true
    · rcases hs : o.render_sdf p.2 with _ | sdf
      · have hg : good_glyph o p.2 = false := by
          simp [good_glyph, hs]
        have hp : process_char o st p = st := by
          simp [process_char, hr, hs]
        simp [hp, List.filter_cons, hg]
      · have hg : good_glyph o p.2 = true := by
          simp [good_glyph, hr, hs]
        have hp : (process_char o st p).glyph_map =
            (p.2, glyph_info_of o p.1 p.2) :: st.glyph_map := by
          simp [process_char, hr, hs]
        simp [hp, List.filter_cons, hg]
    · have hg : good_glyph o p.2 = false := by
        simp [good_glyph, hr]
      have hp : process_char o st p = st := by
        simp [process_char, hr]
      simp [hp, List.filter_cons, hg]

theorem generate_glyph_map_eq (o : FontOracle) (text : List Char) :
    (generate_sdf_atlas o text).glyph_map =
      (((unique_chars text).enum.filter fun p => good_glyph o p.2).map
        fun p => (p.2, glyph_info_of o p.1 p.2)).reverse := by
  rw [generate_sdf_atlas, glyph_map_foldl]
  simp

/-- Coverage from a position in the enumerated unique-character list. -/
theorem glyph_lookup_some_of_enum (o : FontOracle) (text : List Char)
    (i : Nat) (c : Char) (hi : (i, c) ∈ (unique_chars text).enum)
    (hg : good_glyph o c = true) :
    (((generate_sdf_atlas o text).glyph_map).lookup c).isSome = true := by
  have hif : (i, c) ∈ (unique_chars text).enum.filter fun p => good_glyph o p.2 :=
    List.mem_filter.mpr ⟨hi, hg⟩
  have hmem : (c, glyph_info_of o i c) ∈
      (((unique_chars text).enum.filter fun p => good_glyph o p.2).map
        fun p => (p.2, glyph_info_of o p.1 p.2)) :=
    List.mem_map.mpr ⟨(i, c), hif, rfl⟩
  rw [generate_glyph_map_eq]
  exact lookup_isSome_of_mem _ c (glyph_info_of o i c) (List.mem_reverse.mpr hmem)

/-- Core coverage lemma: every non-whitespace character of the text whose
rasterization is non-degenerate and whose SDF creation succeeds ends up
in the glyph map of `generate_sdf_atlas`. -/
theorem glyph_lookup_some (o : FontOracle) (text : List Char) (c : Char)
    (hc : c ∈ text) (hw : is_whitespace c = false)
    (hg : good_glyph o c = true) :
    (((generate_sdf_atlas o text).glyph_map).lookup c).isSome = true := by
  have hu : c ∈ unique_chars text := (mem_unique_chars c text).mpr ⟨hc, hw⟩
  rcases mem_enumFrom_of_mem (unique_chars text) 0 c hu with ⟨i, hi⟩
  exact glyph_lookup_some_of_enum o text i c hi hg

/-! ### C4 : coverage invariant -/

/-- C4, corrected: after `generate_sdf_atlas`, every non-whitespace
character of the text *whose bitmap is non-degenerate and whose SDF
creation succeeds* has a `GlyphInfo` entry in the glyph map.  (The
unconditional form of the claim fails on characters that rasterize to an
empty bitmap — see the counterexample.) -/
theorem coverage_invariant_nondegenerate (o : FontOracle) (text : List Char)
    (c : Char) (hc : c ∈ text) (hw : is_whitespace c = false)
    (h1 : rasterOk o c = true) (h2 : (o.render_sdf c).isSome = true) :
    (((generate_sdf_atlas o text).glyph_map).lookup c).isSome = true :=
  glyph_lookup_some o text c hc hw (by simp [good_glyph, h1, h2])

/-- Witness for C4 on a concrete oracle and text. -/
theorem coverage_invariant_nondegenerate_witness :
    (((generate_sdf_atlas testOracle ['a']).glyph_map).lookup 'a').isSome = true :=
  coverage_invariant_nondegenerate testOracle ['a'] 'a' (by decide) (by decide)
    (by decide) (by decide)

/-- Counterexample to C4 as stated: on an oracle whose bitmaps are empty
(the degenerate case of `fast_text.rs` 470, spec §4.2), the
non-whitespace character `a` of the text `"a"` gets no `GlyphInfo`
entry. -/
theorem coverage_invariant_counterexample :
    'a' ∈ ['a'] ∧ is_whitespace 'a' = false ∧
      ((generate_sdf_atlas emptyOracle ['a']).glyph_map).lookup 'a' = none := by
  refine ⟨by decide, by decide, ?_⟩
  decide

/-! ### C5 : idempotence of the coverage path -/

/-- C5, corrected: when every non-whitespace character of the text
rasterizes to a non-degenerate bitmap and its SDF creation succeeds, a
second invocation of the coverage-ensuring path of `render_text` with the
same text performs no regeneration (the guard of `fast_text.rs` 549
fails) and leaves the renderer state unchanged.  (Without the
non-degeneracy condition the claim fails — see the counterexample.) -/
theorem ensure_coverage_of_guard_false (o : FontOracle) (s : RenderState)
    (text : List Char) (h : needs_regen s text = false) :
    ensure_coverage o s text = (s, false) := by
  rw [ensure_coverage, if_neg (by simp [h])]

theorem ensure_coverage_of_guard_true (o : FontOracle) (s : RenderState)
    (text : List Char) (h : needs_regen s text = true) :
    ensure_coverage o s text =
      ({ glyph_map := (generate_sdf_atlas o text).glyph_map,
         sdf_atlas := some (generate_sdf_atlas o text).atlas_data }, true) := by
  rw [ensure_coverage, if_pos h]

theorem ensure_coverage_idempotent (o : FontOracle) (s0 : RenderState)
    (text : List Char)
    (h : ∀ c ∈ text, is_whitespace c = false →
      rasterOk o c = true ∧ (o.render_sdf c).isSome = true) :
    ensure_coverage o ((ensure_coverage o s0 text).1) text =
      ((ensure_coverage o s0 text).1, false) := by
  by_cases hreg : needs_regen s0 text = true
  · have hguard : needs_regen
        { glyph_map := (generate_sdf_atlas o text).glyph_map,
          sdf_atlas := some (generate_sdf_atlas o text).atlas_data } text = false := by
      have hall : (text.all fun c =>
          is_whitespace c ||
            (List.lookup c (generate_sdf_atlas o text).glyph_map).isSome) = true := by
        rw [List.all_eq_true]
        intro c hcmem
        by_cases hw : is_whitespace c = true
        · simp [hw]
        · have hw2 : is_whitespace c = false := by simpa using hw
          rcases h c hcmem hw2 with ⟨h1, h2⟩
          have hl := glyph_lookup_some o text c hcmem hw2 (by simp [good_glyph, h1, h2])
          simp [hl]
      rw [needs_regen]
      simp [hall]
    rw [ensure_coverage_of_guard_true o s0 text hreg]
    exact ensure_coverage_of_guard_false o _ text hguard
  · have hreg2 : needs_regen s0 text = false := by simpa using hreg
    rw [ensure_coverage_of_guard_false o s0 text hreg2]
    exact ensure_coverage_of_guard_false o s0 text hreg2

/-- Witness for C5 on a concrete oracle, state and text. -/
theorem ensure_coverage_idempotent_witness :
    ensure_coverage testOracle
        ((ensure_coverage testOracle initialRenderState ['a']).1) ['a'] =
      ((ensure_coverage testOracle initialRenderState ['a']).1, false) :=
  ensure_coverage_idempotent testOracle initialRenderState ['a'] (by decide)

/-- Counterexample to C5 as stated: with an oracle whose bitmaps are
empty, the character is never inserted into the glyph map, so the guard
fires again and the second invocation regenerates the atlas
(rasterizing anew). -/
theorem ensure_coverage_regenerates_counterexample :
    (ensure_coverage emptyOracle
      ((ensure_coverage emptyOracle initialRenderState ['a']).1) ['a']).2 = true := by
  decide

/-! ### C1 : atlas-overflow behaviour -/

/-- Writes aimed at a cell whose origin lies below the atlas are all
discarded by the bounds check of `fast_text.rs` 506. -/
theorem write_sdf_cell_out_of_atlas (w h : Nat) (data : List ℚ) (cx cy : Nat)
    (hcy : atlas_size ≤ cy) (a : Nat → Nat) :
    write_sdf_cell w h data cx cy a = a := by
  simp only [write_sdf_cell]
  refine foldl_fixed _ _ _ ?_
  intro y
  refine foldl_fixed _ _ _ ?_
  intro x
  have hge : ¬ ((cy + y) * atlas_size + (cx + x) < atlas_size * atlas_size) := by
    have h1 : atlas_size = 1024 := rfl
    rw [h1] at hcy ⊢
    omega
  rw [if_neg hge]

/-- C1, corrected: a character whose cell index reaches the atlas
capacity `chars_per_row²` is *not* dropped — it still receives a
`GlyphInfo` entry (with `atlas_y` past the bottom of the atlas), so
glyph lookups for it do not return missing; only its pixel writes are
discarded by the bounds check, and no error is raised. -/
theorem atlas_overflow_entries_kept (o : FontOracle) (text : List Char)
    (i : Nat) (c : Char)
    (hmem : (i, c) ∈ (unique_chars text).enum)
    (h1 : rasterOk o c = true) (h2 : (o.render_sdf c).isSome = true)
    (hcap : chars_per_row * chars_per_row ≤ i) :
    (((generate_sdf_atlas o text).glyph_map).lookup c).isSome = true ∧
    atlas_size ≤ (glyph_info_of o i c).atlas_y ∧
    (∀ (w h : Nat) (data : List ℚ) (a : Nat → Nat),
      write_sdf_cell w h data ((i % chars_per_row) * char_size)
        ((i / chars_per_row) * char_size) a = a) := by
  have hy : atlas_size ≤ (i / chars_per_row) * char_size := by
    have e1 : chars_per_row = 16 := rfl
    have e2 : char_size = 64 := rfl
    have e3 : atlas_size = 1024 := rfl
    rw [e1] at hcap ⊢
    rw [e2, e3]
    have hdiv : 16 ≤ i / 16 := Nat.le_div_iff_mul_le (by omega) |>.mpr (by omega)
    omega
  refine ⟨glyph_lookup_some_of_enum o text i c hmem (by simp [good_glyph, h1, h2]),
    hy, ?_⟩
  intro w h data a
  exact write_sdf_cell_out_of_atlas w h data _ _ hy a

set_option maxRecDepth 40000 in
/-- Witness for C1 at the concrete overflowing input: the 257th unique
character of `bigText` keeps a glyph-map entry and its writes are
no-ops. -/
theorem atlas_overflow_entries_kept_witness :
    (((generate_sdf_atlas testOracle bigText).glyph_map).lookup (Char.ofNat 1280)).isSome = true ∧
    atlas_size ≤ (glyph_info_of testOracle 256 (Char.ofNat 1280)).atlas_y ∧
    write_sdf_cell 9 9 [] ((256 % chars_per_row) * char_size)
      ((256 / chars_per_row) * char_size) initialAtlas = initialAtlas := by
  have hw := atlas_overflow_entries_kept testOracle bigText 256 (Char.ofNat 1280)
    (by decide) (by decide) (by decide) (by decide)
  exact ⟨hw.1, hw.2.1, hw.2.2 9 9 [] initialAtlas⟩

set_option maxRecDepth 40000 in
/-- Counterexample to C1 as stated: `bigText` has 257 distinct
non-whitespace characters, one more than the capacity
`chars_per_row² = 256`, yet its 257th sorted unique character
(`U+0500`, index 256) is *present* in the glyph map after
`generate_sdf_atlas` — it is not dropped and its lookup does not return
missing. -/
theorem atlas_overflow_counterexample :
    (unique_chars bigText).length = 257 ∧
    chars_per_row * chars_per_row = 256 ∧
    (unique_chars bigText).get? 256 = some (Char.ofNat 1280) ∧
    (((generate_sdf_atlas testOracle bigText).glyph_map).lookup (Char.ofNat 1280)).isSome = true := by
  decide

/-! ### C2 : glyph-map immutability across coverage calls -/

/-- C2 is violated by the code (the spec flags this repack as a likely
bug in §9): `generate_sdf_atlas` clears `glyph_map` on every call
(`fast_text.rs` 462) and reassigns cells from the sorted unique
characters of the new text alone.  Concretely: after covering `"b"`,
character `b` sits at cell `(0,0)`; covering `"ab"` next moves `b` to
cell `(64,0)` and reuses cell `(0,0)` for `a` — the entry is mutated
and the cell reused, with no intervening `clear`. -/
theorem glyph_cell_reassigned_on_regeneration :
    ((generate_sdf_atlas testOracle ['b']).glyph_map.lookup 'b') =
      some { atlas_x := 0, atlas_y := 0, width := 1, height := 1,
             sdf_width := 9, sdf_height := 9 } ∧
    ((generate_sdf_atlas testOracle ['a', 'b']).glyph_map.lookup 'b') =
      some { atlas_x := 64, atlas_y := 0, width := 1, height := 1,
             sdf_width := 9, sdf_height := 9 } ∧
    ((generate_sdf_atlas testOracle ['a', 'b']).glyph_map.lookup 'a') =
      some { atlas_x := 0, atlas_y := 0, width := 1, height := 1,
             sdf_width := 9, sdf_height := 9 } := by
  decide

/-! ### C7 : SDF quantization range -/

theorem quantize_le (d : ℚ) : quantize d ≤ 255 := by
  rw [quantize]
  refine Int.toNat_le.mpr ?_
  have hmin : min (max ((d / sdf_radius + 1) * (255 / 2)) 0) (255 : ℚ) ≤ 255 :=
    min_le_right _ _
  calc ⌊min (max ((d / sdf_radius + 1) * (255 / 2)) 0) (255 : ℚ)⌋
      ≤ ⌊(255 : ℚ)⌋ := Int.floor_le_floor hmin
    _ = 255 := by norm_num

theorem write_sdf_cell_le (w h : Nat) (data : List ℚ) (cx cy : Nat)
    (a : Nat → Nat) (ha : ∀ j, a j ≤ 255) :
    ∀ j, write_sdf_cell w h data cx cy a j ≤ 255 := by
  simp only [write_sdf_cell]
  refine foldl_preserve (P := fun (a2 : Nat → Nat) => ∀ j, a2 j ≤ 255) _ ?_ _ _ ha
  intro a2 y ha2
  refine foldl_preserve (P := fun (a3 : Nat → Nat) => ∀ j, a3 j ≤ 255) _ ?_ _ _ ha2
  intro a3 x ha3
  by_cases hidx : (cy + y) * atlas_size + (cx + x) < atlas_size * atlas_size
  · rcases hget : data.get? (y * w + x) with _ | d
    · simpa [hidx, hget] using ha3
    · intro j
      simp only [hidx, hget, if_true, if_pos]
      rw [atlasWrite]
      by_cases hj : j = (cy + y) * atlas_size + (cx + x)
      · rw [if_pos hj]; exact quantize_le d
      · rw [if_neg hj]; exact ha3 j
  · simpa [hidx] using ha3

/-- C7: every byte of the atlas produced by `generate_sdf_atlas` — each
written one computed as `clamp(((d / radius) + 1.0) * 127.5, 0, 255)`
by `quantize`, over the neutral initial value 128 — lies within
`[0, 255]` (the lower bound is inherent to `Nat`). -/
theorem sdf_quantization_range :
    (∀ d : ℚ, quantize d ≤ 255) ∧
    (∀ (o : FontOracle) (text : List Char) (j : Nat),
      (generate_sdf_atlas o text).atlas_data j ≤ 255) := by
  refine ⟨quantize_le, ?_⟩
  intro o text j
  refine foldl_preserve (P := fun (st : AtlasState) => ∀ j, st.atlas_data j ≤ 255)
    (process_char o) ?_ ((unique_chars text).enum)
    { glyph_map := [], atlas_data := initialAtlas } ?_ j
  · intro st p hst
    by_cases hr : rasterOk o p.2 = true
    · rcases hs : o.render_sdf p.2 with _ | sdf
      · simpa [process_char, hr, hs] using hst
      · have hp : (process_char o st p).atlas_data =
            write_sdf_cell ((o.rasterize p.2).metrics.width + 2 * buffer_size)
              ((o.rasterize p.2).metrics.height + 2 * buffer_size) sdf
              ((p.1 % chars_per_row) * char_size)
              ((p.1 / chars_per_row) * char_size) st.atlas_data := by
          simp [process_char, hr, hs]
        rw [hp]
        exact write_sdf_cell_le _ _ _ _ _ _ hst
    · simpa [process_char, hr] using hst
  · intro j2
    show (128 : Nat) ≤ 255
    omega

/-! ### C6 : vertex generation -/

theorem glyph_quad_step_foldl (gm : List (Char × GlyphInfo)) (sw sh : ℚ) :
    ∀ (layout : List LaidGlyph) (vs : List ℚ),
      layout.foldl (glyph_quad_step gm sw sh) vs =
        vs ++ (layout.filterMap fun g =>
          (gm.lookup g.parent).map fun gi => spec_glyph_quad gi g sw sh).flatten := by
  intro layout
  induction layout with
  | nil => intro vs; simp
  | cons g t ih =>
    intro vs
    rw [List.foldl_cons, ih]
    rcases hl : gm.lookup g.parent with _ | gi
    · have hstep : glyph_quad_step gm sw sh vs g = vs := by
        rw [glyph_quad_step, hl]
      rw [hstep, List.filterMap_cons, hl]
      simp
    · have hstep : glyph_quad_step gm sw sh vs g = vs ++ spec_glyph_quad gi g sw sh := by
        rw [glyph_quad_step, hl]
        simp [spec_glyph_quad, ndc_x, ndc_y]
      rw [hstep, List.filterMap_cons, hl]
      simp [List.append_assoc]

theorem spec_glyph_quad_length (gi : GlyphInfo) (g : LaidGlyph) (sw sh : ℚ) :
    (spec_glyph_quad gi g sw sh).length = 24 := by
  simp [spec_glyph_quad]

theorem quad_flatten_length (gm : List (Char × GlyphInfo)) (sw sh : ℚ) :
    ∀ layout : List LaidGlyph,
      ((layout.filterMap fun g =>
        (gm.lookup g.parent).map fun gi => spec_glyph_quad gi g sw sh).flatten).length =
      24 * layout.countP fun g => (gm.lookup g.parent).isSome := by
  intro layout
  induction layout with
  | nil => simp
  | cons g t ih =>
    rw [List.filterMap_cons, List.countP_cons]
    rcases hl : gm.lookup g.parent with _ | gi
    · simp only [hl, Option.map_none', Option.isSome_none]
      rw [ih]
      simp
    · simp only [hl, Option.map_some', Option.isSome_some]
      rw [List.flatten_cons, List.length_append, ih, spec_glyph_quad_length]
      simp only [if_true]
      omega

/-- C6: `generate_text_vertices` equals, glyph by glyph, the flattening
of one 24-float quad per laid-out glyph present in the glyph map, each
quad being the six `(ndc_x, ndc_y, u, v)` vertices in the order
bottom-left, bottom-right, top-left / bottom-right, top-right, top-left
with the spec's NDC formulas; glyphs absent from the map contribute zero
vertices, so the length is 24 times the number of present glyphs. -/
theorem generate_text_vertices_spec (gm : List (Char × GlyphInfo))
    (layout : List LaidGlyph) (sw sh : ℚ) :
    generate_text_vertices gm layout sw sh =
      (layout.filterMap fun g =>
        (gm.lookup g.parent).map fun gi => spec_glyph_quad gi g sw sh).flatten ∧
    (generate_text_vertices gm layout sw sh).length =
      24 * layout.countP fun g => (gm.lookup g.parent).isSome := by
  have h1 := glyph_quad_step_foldl gm sw sh layout []
  rw [List.nil_append] at h1
  refine ⟨h1, ?_⟩
  rw [generate_text_vertices, h1]
  exact quad_flatten_length gm sw sh layout

/-! ### C3 : the positional diff

The loop of `calculate_dirty_regions` is verified through an invariant
`DiffInv a b n st` describing the loop state after processing positions
`0 .. n-1`. -/

/-- Loop invariant of `calculate_dirty_regions` after `n` iterations:
the flag mirrors dirtiness of the previous position; an open run is a
maximal dirty run ending at `n - 1`; closed regions are exactly maximal
dirty runs strictly before `n`; and every dirty position below `n` is
accounted for. -/
def DiffInv (a b : List Char) (n : Nat) (st : DiffSt) : Prop :=
  (st.in_dirty_region = true ↔ 0 < n ∧ a.get? (n - 1) ≠ b.get? (n - 1)) ∧
  (st.in_dirty_region = true →
    st.ending + 1 = n ∧ st.start < n ∧
    (∀ j, st.start ≤ j → j < n → a.get? j ≠ b.get? j) ∧
    (st.start = 0 ∨ a.get? (st.start - 1) = b.get? (st.start - 1))) ∧
  (∀ r ∈ st.regions,
    r.start_char < r.end_char ∧ r.end_char < n ∧
    (∀ j, r.start_char ≤ j → j < r.end_char → a.get? j ≠ b.get? j) ∧
    (r.start_char = 0 ∨ a.get? (r.start_char - 1) = b.get? (r.start_char - 1)) ∧
    a.get? r.end_char = b.get? r.end_char ∧ r.needs_update = true) ∧
  (∀ i, i < n → a.get? i ≠ b.get? i →
    coveredBy st.regions i = true ∨ (st.in_dirty_region = true ∧ st.start ≤ i)) ∧
  st.regions.Pairwise (fun r1 r2 => r1.end_char < r2.start_char) ∧
  (st.in_dirty_region = true → ∀ r ∈ st.regions, r.end_char < st.start)

theorem coveredBy_exists {rs : List DirtyRegion} {i : Nat} :
    coveredBy rs i = true ↔ ∃ r ∈ rs, r.start_char ≤ i ∧ i < r.end_char := by
  rw [coveredBy, List.any_eq_true]
  constructor
  · rintro ⟨r, hr, hp⟩
    rw [Bool.and_eq_true, decide_eq_true_eq, decide_eq_true_eq] at hp
    exact ⟨r, hr, hp⟩
  · rintro ⟨r, hr, h1, h2⟩
    refine ⟨r, hr, ?_⟩
    rw [Bool.and_eq_true, decide_eq_true_eq, decide_eq_true_eq]
    exact ⟨h1, h2⟩

theorem dirty_lt_max (a b : List Char) (i : Nat) (h : a.get? i ≠ b.get? i) :
    i < max a.length b.length := by
  by_contra hge
  push_neg at hge
  have ha : a.get? i = none := List.get?_eq_none.mpr (le_trans (le_max_left _ _) hge)
  have hb : b.get? i = none := List.get?_eq_none.mpr (le_trans (le_max_right _ _) hge)
  exact h (ha.trans hb.symm)

theorem diff_inv_step (a b : List Char) (n : Nat) (st : DiffSt)
    (h : DiffInv a b n st) : DiffInv a b (n + 1) (diff_step a b st n) := by
  unfold DiffInv at h ⊢
  obtain ⟨hA, hB, hC, hD, hE, hF⟩ := h
  by_cases hd : a.get? n ≠ b.get? n
  · by_cases hin : st.in_dirty_region = true
    · have hstep : diff_step a b st n = { st with ending := n } := by
        rw [diff_step, if_pos hd, if_pos hin]
      obtain ⟨he, hslt, hrun, hbnd⟩ := hB hin
      rw [hstep]
      refine ⟨?_, ?_, ?_, ?_, ?_, ?_⟩
      · show st.in_dirty_region = true ↔ 0 < n + 1 ∧ a.get? (n + 1 - 1) ≠ b.get? (n + 1 - 1)
        simp only [Nat.add_sub_cancel]
        exact ⟨fun _ => ⟨Nat.succ_pos n, hd⟩, fun _ => hin⟩
      · intro _
        refine ⟨rfl, Nat.lt_succ_of_lt hslt, ?_, hbnd⟩
        intro j hj1 hj2
        rcases Nat.lt_succ_iff_lt_or_eq.mp hj2 with hj3 | hj3
        · exact hrun j hj1 hj3
        · subst hj3; exact hd
      · intro r hr
        obtain ⟨p1, p2, p3, p4, p5, p6⟩ := hC r hr
        exact ⟨p1, Nat.lt_succ_of_lt p2, p3, p4, p5, p6⟩
      · intro i hi hdi
        rcases Nat.lt_succ_iff_lt_or_eq.mp hi with hi2 | hi2
        · rcases hD i hi2 hdi with hcov | ⟨_, hsi⟩
          · exact Or.inl hcov
          · exact Or.inr ⟨hin, hsi⟩
        · subst hi2
          exact Or.inr ⟨hin, Nat.le_of_lt hslt⟩
      · exact hE
      · intro _ r hr
        exact hF hin r hr
    · have hstep : diff_step a b st n =
          { st with start := n, ending := n, in_dirty_region := true } := by
        rw [diff_step, if_pos hd, if_neg hin]
      rw [hstep]
      refine ⟨?_, ?_, ?_, ?_, ?_, ?_⟩
      · show (true = true) ↔ 0 < n + 1 ∧ a.get? (n + 1 - 1) ≠ b.get? (n + 1 - 1)
        simp only [Nat.add_sub_cancel]
        exact ⟨fun _ => ⟨Nat.succ_pos n, hd⟩, fun _ => True.intro⟩
      · intro _
        refine ⟨rfl, Nat.lt_succ_self n, ?_, ?_⟩
        · intro j hj1 hj2
          have hj1b : n ≤ j := hj1
          have hj2b : j < n + 1 := hj2
          have hj3 : j = n := by omega
          subst hj3
          exact hd
        · show n = 0 ∨ a.get? (n - 1) = b.get? (n - 1)
          by_cases hn : n = 0
          · exact Or.inl hn
          · refine Or.inr ?_
            have hnot : ¬(0 < n ∧ a.get? (n - 1) ≠ b.get? (n - 1)) :=
              fun hc => hin (hA.mpr hc)
            have hpos : 0 < n := Nat.pos_of_ne_zero hn
            by_contra hne
            exact hnot ⟨hpos, hne⟩
      · intro r hr
        obtain ⟨p1, p2, p3, p4, p5, p6⟩ := hC r hr
        exact ⟨p1, Nat.lt_succ_of_lt p2, p3, p4, p5, p6⟩
      · intro i hi hdi
        rcases Nat.lt_succ_iff_lt_or_eq.mp hi with hi2 | hi2
        · rcases hD i hi2 hdi with hcov | ⟨hc2, _⟩
          · exact Or.inl hcov
          · exact absurd hc2 hin
        · subst hi2
          exact Or.inr ⟨rfl, Nat.le_refl i⟩
      · exact hE
      · intro _ r hr
        show r.end_char < n
        exact (hC r hr).2.1
  · have heq : a.get? n = b.get? n := not_not.mp hd
    by_cases hin : st.in_dirty_region = true
    · have hstep : diff_step a b st n =
          { st with
            regions := st.regions ++ [⟨st.start, st.ending + 1, true⟩],
            in_dirty_region := false } := by
        rw [diff_step, if_neg hd, if_pos hin]
      obtain ⟨he, hslt, hrun, hbnd⟩ := hB hin
      rw [hstep]
      refine ⟨?_, ?_, ?_, ?_, ?_, ?_⟩
      · show (false = true) ↔ 0 < n + 1 ∧ a.get? (n + 1 - 1) ≠ b.get? (n + 1 - 1)
        simp only [Nat.add_sub_cancel]
        constructor
        · intro hfalse; exact absurd hfalse Bool.false_ne_true
        · rintro ⟨_, hc⟩; exact absurd heq hc
      · intro hfalse; exact absurd hfalse Bool.false_ne_true
      · intro r hr
        rcases List.mem_append.mp hr with hr2 | hr2
        · obtain ⟨p1, p2, p3, p4, p5, p6⟩ := hC r hr2
          exact ⟨p1, Nat.lt_succ_of_lt p2, p3, p4, p5, p6⟩
        · have hre : r = ⟨st.start, st.ending + 1, true⟩ := by simpa using hr2
          subst hre
          refine ⟨?_, ?_, ?_, hbnd, ?_, rfl⟩
          · show st.start < st.ending + 1
            omega
          · show st.ending + 1 < n + 1
            omega
          · intro j h1 h2
            refine hrun j h1 ?_
            have h3 : j < st.ending + 1 := h2
            omega
          · show a.get? (st.ending + 1) = b.get? (st.ending + 1)
            rw [he]
            exact heq
      · intro i hi hdi
        rcases Nat.lt_succ_iff_lt_or_eq.mp hi with hi2 | hi2
        · rcases hD i hi2 hdi with hcov | ⟨_, hsi⟩
          · refine Or.inl ?_
            rcases coveredBy_exists.mp hcov with ⟨r, hr, hh⟩
            exact coveredBy_exists.mpr ⟨r, List.mem_append.mpr (Or.inl hr), hh⟩
          · refine Or.inl ?_
            refine coveredBy_exists.mpr
              ⟨⟨st.start, st.ending + 1, true⟩,
               List.mem_append.mpr (Or.inr (by simp)), hsi, ?_⟩
            show i < st.ending + 1
            omega
        · subst hi2
          exact absurd heq hdi
      · show (st.regions ++ [(⟨st.start, st.ending + 1, true⟩ : DirtyRegion)]).Pairwise
          fun r1 r2 => r1.end_char < r2.start_char
        rw [List.pairwise_append]
        refine ⟨hE, by simp, ?_⟩
        intro r1 hr1 r2 hr2
        have hr2e : r2 = ⟨st.start, st.ending + 1, true⟩ := by simpa using hr2
        subst hr2e
        exact hF hin r1 hr1
      · intro hfalse
        exact absurd hfalse Bool.false_ne_true
    · have hstep : diff_step a b st n = st := by
        rw [diff_step, if_neg hd, if_neg hin]
      rw [hstep]
      refine ⟨?_, ?_, ?_, ?_, ?_, ?_⟩
      · simp only [Nat.add_sub_cancel]
        constructor
        · intro h2; exact absurd h2 hin
        · rintro ⟨_, hc⟩; exact absurd heq hc
      · intro h2; exact absurd h2 hin
      · intro r hr
        obtain ⟨p1, p2, p3, p4, p5, p6⟩ := hC r hr
        exact ⟨p1, Nat.lt_succ_of_lt p2, p3, p4, p5, p6⟩
      · intro i hi hdi
        rcases Nat.lt_succ_iff_lt_or_eq.mp hi with hi2 | hi2
        · rcases hD i hi2 hdi with hcov | ⟨hc2, _⟩
          · exact Or.inl hcov
          · exact absurd hc2 hin
        · subst hi2
          exact absurd heq hdi
      · exact hE
      · intro h2
        exact absurd h2 hin

theorem diff_inv_foldl (a b : List Char) :
    ∀ n, DiffInv a b n ((List.range n).foldl (diff_step a b) ⟨0, 0, false, []⟩) := by
  intro n
  induction n with
  | zero =>
    unfold DiffInv
    refine ⟨?_, ?_, ?_, ?_, ?_, ?_⟩
    · simp
    · intro h2
      exact absurd h2 (by simp)
    · intro r hr
      simp at hr
    · intro i hi
      exact absurd hi (Nat.not_lt_zero i)
    · exact List.Pairwise.nil
    · intro h2
      exact absurd h2 (by simp)
  | succ n ih =>
    rw [List.range_succ, List.foldl_append, List.foldl_cons, List.foldl_nil]
    exact diff_inv_step a b n _ ih

theorem diff_close_covered (a b : List Char) (stf : DiffSt)
    (h : DiffInv a b (max a.length b.length) stf) (i : Nat) :
    coveredBy (diff_close stf) i = true ↔ a.get? i ≠ b.get? i := by
  unfold DiffInv at h
  obtain ⟨hA, hB, hC, hD, hE, hF⟩ := h
  rw [diff_close]
  by_cases hin : stf.in_dirty_region = true
  · rw [if_pos hin]
    obtain ⟨he, hslt, hrun, _⟩ := hB hin
    constructor
    · intro hcov
      rcases coveredBy_exists.mp hcov with ⟨r, hr, h1, h2⟩
      rcases List.mem_append.mp hr with hr2 | hr2
      · exact (hC r hr2).2.2.1 i h1 h2
      · have hre : r = ⟨stf.start, stf.ending + 1, true⟩ := by simpa using hr2
        subst hre
        refine hrun i h1 ?_
        have h3 : i < stf.ending + 1 := h2
        omega
    · intro hdi
      have hi : i < max a.length b.length := dirty_lt_max a b i hdi
      rcases hD i hi hdi with hcov | ⟨_, hsi⟩
      · rcases coveredBy_exists.mp hcov with ⟨r, hr, hh⟩
        exact coveredBy_exists.mpr ⟨r, List.mem_append.mpr (Or.inl hr), hh⟩
      · refine coveredBy_exists.mpr
          ⟨⟨stf.start, stf.ending + 1, true⟩,
           List.mem_append.mpr (Or.inr (by simp)), hsi, ?_⟩
        show i < stf.ending + 1
        omega
  · rw [if_neg hin]
    constructor
    · intro hcov
      rcases coveredBy_exists.mp hcov with ⟨r, hr, h1, h2⟩
      exact (hC r hr).2.2.1 i h1 h2
    · intro hdi
      have hi : i < max a.length b.length := dirty_lt_max a b i hdi
      rcases hD i hi hdi with hcov | ⟨hc2, _⟩
      · exact hcov
      · exact absurd hc2 hin

theorem diff_close_regions (a b : List Char) (stf : DiffSt)
    (h : DiffInv a b (max a.length b.length) stf) :
    ∀ r ∈ diff_close stf,
      r.start_char < r.end_char ∧ r.end_char ≤ max a.length b.length ∧
      (∀ j, r.start_char ≤ j → j < r.end_char → a.get? j ≠ b.get? j) ∧
      (r.start_char = 0 ∨ a.get? (r.start_char - 1) = b.get? (r.start_char - 1)) ∧
      a.get? r.end_char = b.get? r.end_char := by
  unfold DiffInv at h
  obtain ⟨hA, hB, hC, hD, hE, hF⟩ := h
  intro r hr
  rw [diff_close] at hr
  by_cases hin : stf.in_dirty_region = true
  · rw [if_pos hin] at hr
    obtain ⟨he, hslt, hrun, hbnd⟩ := hB hin
    rcases List.mem_append.mp hr with hr2 | hr2
    · obtain ⟨p1, p2, p3, p4, p5, _⟩ := hC r hr2
      exact ⟨p1, Nat.le_of_lt p2, p3, p4, p5⟩
    · have hre : r = ⟨stf.start, stf.ending + 1, true⟩ := by simpa using hr2
      subst hre
      have hclean : a.get? (stf.ending + 1) = b.get? (stf.ending + 1) := by
        rw [he]
        have ha : a.get? (max a.length b.length) = none :=
          List.get?_eq_none.mpr (le_max_left _ _)
        have hb2 : b.get? (max a.length b.length) = none :=
          List.get?_eq_none.mpr (le_max_right _ _)
        rw [ha, hb2]
      refine ⟨?_, ?_, ?_, hbnd, hclean⟩
      · show stf.start < stf.ending + 1
        omega
      · show stf.ending + 1 ≤ max a.length b.length
        omega
      · intro j h1 h2
        refine hrun j h1 ?_
        have h3 : j < stf.ending + 1 := h2
        omega
  · rw [if_neg hin] at hr
    obtain ⟨p1, p2, p3, p4, p5, _⟩ := hC r hr
    exact ⟨p1, Nat.le_of_lt p2, p3, p4, p5⟩

theorem diff_close_pairwise (a b : List Char) (stf : DiffSt)
    (h : DiffInv a b (max a.length b.length) stf) :
    (diff_close stf).Pairwise fun r1 r2 => r1.end_char < r2.start_char := by
  unfold DiffInv at h
  obtain ⟨hA, hB, hC, hD, hE, hF⟩ := h
  rw [diff_close]
  by_cases hin : stf.in_dirty_region = true
  · rw [if_pos hin, List.pairwise_append]
    refine ⟨hE, by simp, ?_⟩
    intro r1 hr1 r2 hr2
    have hr2e : r2 = ⟨stf.start, stf.ending + 1, true⟩ := by simpa using hr2
    subst hr2e
    exact hF hin r1 hr1
  · rw [if_neg hin]
    exact hE

theorem range'_filterMap_get (l : List Char) :
    ∀ (k s : Nat), l.length ≤ s + k →
      (List.range' s k).filterMap l.get? = l.drop s := by
  intro k
  induction k with
  | zero =>
    intro s h
    rw [List.drop_eq_nil_of_le (by omega)]
    rfl
  | succ k ih =>
    intro s h
    rw [List.range'_succ, List.filterMap_cons]
    rcases hs : l.get? s with _ | c
    · have hlen : l.length ≤ s := List.get?_eq_none.mp hs
      rw [ih (s + 1) (by omega), List.drop_eq_nil_of_le hlen,
        List.drop_eq_nil_of_le (by omega)]
    · rw [ih (s + 1) (by omega)]
      rcases List.get?_eq_some.mp hs with ⟨hslt, hget⟩
      rw [List.drop_eq_getElem_cons hslt]
      rw [List.get_eq_getElem] at hget
      rw [hget]

theorem range_filterMap_get (l : List Char) (n : Nat) (h : l.length ≤ n) :
    (List.range n).filterMap l.get? = l := by
  rw [List.range_eq_range', range'_filterMap_get l n 0 (by omega), List.drop_zero]

theorem apply_calculate (a b : List Char)
    (hcov : ∀ i, coveredBy (calculate_dirty_regions a b) i = true ↔
      a.get? i ≠ b.get? i) :
    apply_dirty_regions a b (calculate_dirty_regions a b) = b := by
  rw [apply_dirty_regions]
  have hcong : ∀ i ∈ List.range (max a.length b.length),
      (if coveredBy (calculate_dirty_regions a b) i then b.get? i else a.get? i) =
        b.get? i := by
    intro i hi
    by_cases hc : coveredBy (calculate_dirty_regions a b) i = true
    · rw [if_pos hc]
    · rw [if_neg hc]
      have hnd : ¬(a.get? i ≠ b.get? i) := fun hd => hc ((hcov i).mpr hd)
      exact not_not.mp hnd
  rw [List.filterMap_congr hcong]
  exact range_filterMap_get b _ (le_max_right _ _)

/-- C3: the dirty regions of `calculate_dirty_regions a b` cover exactly
the positions where `a` and `b` differ (a position with one side
exhausted counts as differing), each region is a nonempty half-open
range that is maximal (the positions adjacent to it agree), the regions
are strictly ordered with clean gaps (so each maximal dirty run is one
single region), and applying the regions to `a` as positional
replacements taking `b`'s characters yields `b`. -/
theorem calculate_dirty_regions_spec (a b : List Char) :
    (∀ i, coveredBy (calculate_dirty_regions a b) i = true ↔
      a.get? i ≠ b.get? i) ∧
    (∀ r ∈ calculate_dirty_regions a b,
      r.start_char < r.end_char ∧ r.end_char ≤ max a.length b.length ∧
      (∀ j, r.start_char ≤ j → j < r.end_char → a.get? j ≠ b.get? j) ∧
      (r.start_char = 0 ∨ a.get? (r.start_char - 1) = b.get? (r.start_char - 1)) ∧
      a.get? r.end_char = b.get? r.end_char) ∧
    ((calculate_dirty_regions a b).Pairwise
      fun r1 r2 => r1.end_char < r2.start_char) ∧
    apply_dirty_regions a b (calculate_dirty_regions a b) = b := by
  have hinv := diff_inv_foldl a b (max a.length b.length)
  have h1 := diff_close_covered a b _ hinv
  have h2 := diff_close_regions a b _ hinv
  have h3 := diff_close_pairwise a b _ hinv
  exact ⟨h1, h2, h3, apply_calculate a b h1⟩

/-- Witness for C3 at the concrete edit `"Hi" → "Hit"` of the spec's
example: one region `[2, 3)` and a successful round trip. -/
theorem calculate_dirty_regions_spec_witness :
    coveredBy (calculate_dirty_regions ['H', 'i'] ['H', 'i', 't']) 2 = true ∧
    apply_dirty_regions ['H', 'i'] ['H', 'i', 't']
      (calculate_dirty_regions ['H', 'i'] ['H', 'i', 't']) = ['H', 'i', 't'] :=
  ⟨(calculate_dirty_regions_spec ['H', 'i'] ['H', 'i', 't']).1 2 |>.mpr (by decide),
   (calculate_dirty_regions_spec ['H', 'i'] ['H', 'i', 't']).2.2.2⟩

end FastText
